import Mathlib

/-!
Verification of the RAM remanence tester core (src/app.c) against its
natural-language specification.  The C code is shallowly embedded: the
64-bit machine integers become `Nat` (all operations used here stay below
2^64 when their inputs do, so no explicit wraparound is needed except where
noted), the global mutable state (`lfsr`, `Mmap`, the statistics counters)
becomes explicit state passing, and fallible code returns `Option`.
-/

set_option maxRecDepth 8192

namespace RamTest

/-! ## Constants (src/app.c lines 55-58, 108) -/

def PAGE_SIZE : Nat := 0x1000

def ADDR_4G : Nat := 0x100000000

def ADDR_16M : Nat := 0x1000000

def PAGES_16M : Nat := 0x1000

def MEMORY_DESC_MAX : Nat := 200

lemma PAGE_SIZE_eq : PAGE_SIZE = 4096 := rfl

lemma ADDR_16M_eq : ADDR_16M = 16777216 := rfl

lemma PAGES_16M_eq : PAGES_16M = 4096 := rfl

lemma ADDR_4G_eq : ADDR_4G = 4294967296 := rfl

lemma MEMORY_DESC_MAX_eq : MEMORY_DESC_MAX = 200 := rfl

/-! ## Pattern generator (src/app.c lines 76-97)

The C global `static UINTN lfsr` is passed explicitly: `Pattern` takes the
current register and returns `(return value, new register)`; the source
returns the updated register itself, so both components coincide. -/

/-- Embeds `Pattern` (app.c 78-86): taps 64,63,61,60; the C statement
`lfsr ^= (lfsr >> 1) | (bit << 63); return lfsr;`. -/
def Pattern (lfsr : Nat) : Nat × Nat :=
  let bit := ((lfsr >>> 0) ^^^ (lfsr >>> 1) ^^^ (lfsr >>> 3) ^^^ (lfsr >>> 4)) &&& 1
  let lfsr' := lfsr ^^^ ((lfsr >>> 1) ||| (bit <<< 63))
  (lfsr', lfsr')

/-- The state transition of one `Pattern` call. -/
def patternNext (s : Nat) : Nat := (Pattern s).2

/-- `n` successive state transitions of the generator. -/
def iterPattern : Nat → Nat → Nat
  | 0, s => s
  | n + 1, s => iterPattern n (patternNext s)

/-- Embeds `StirPattern` (app.c 88-97): overwrite the register with
`Seed ^ 0x7DEF56A18BC1A1E5`, run 50 discarded `Pattern()` calls, then
`lfsr = Pattern()`.  The first argument is the register value before the
call; the source overwrites it unconditionally. -/
def StirPattern (_lfsr Seed : Nat) : Nat :=
  let l0 := Seed ^^^ 0x7DEF56A18BC1A1E5
  patternNext (iterPattern 50 l0)

/-- The list of the next `n` values returned by successive `Pattern()` calls
starting from register state `s`. -/
def patternStream : Nat → Nat → List Nat
  | 0, _ => []
  | n + 1, s => (Pattern s).1 :: patternStream n (Pattern s).2

/-! ## Claims C2, C3, C4 -/

/-- Claim C2: for every 64-bit address `a`, the sequence obtained by
`stir(a)` followed by 512 `next()` calls is a pure function of `a` alone:
two independent invocations with the same `a` — i.e. starting from any two
generator states `s₁`, `s₂` — produce identical 512-word sequences. -/
theorem stir_stream_pure (s₁ s₂ a : Nat) :
    patternStream 512 (StirPattern s₁ a) = patternStream 512 (StirPattern s₂ a) :=
  rfl

/-- Claim C3: one call to `next()` on state `S` computes
`bit = (S ^ (S>>1) ^ (S>>3) ^ (S>>4)) & 1`, sets the new state to
`S XOR ((S>>1) | (bit << 63))`, and returns exactly that updated state. -/
theorem pattern_step_spec (S : Nat) :
    Pattern S =
      (S ^^^ ((S >>> 1) ||| (((S ^^^ (S >>> 1) ^^^ (S >>> 3) ^^^ (S >>> 4)) &&& 1) <<< 63)),
       S ^^^ ((S >>> 1) ||| (((S ^^^ (S >>> 1) ^^^ (S >>> 3) ^^^ (S >>> 4)) &&& 1) <<< 63))) :=
  rfl

/-- Claim C4 (code bug): the claim states that after `stir(seed)` the
generator state is non-zero for *every* 64-bit seed, and the code's own
comment asserts the mask "makes at least one bit set"; but at
`seed = 0x7DEF56A18BC1A1E5` (the mixing constant itself) the masked seed is
0, which is a fixed point of the LFSR step, so `stir` leaves the state 0. -/
theorem stir_zero_at_mask_seed : StirPattern 0 0x7DEF56A18BC1A1E5 = 0 := by
  decide

/-! ## Memory descriptors and the region table (src/app.c lines 108-189)

`EFI_MEMORY_DESCRIPTOR` is `{UINT32 Type; UINT32 Pad; UINT64 PhysicalStart,
VirtualStart, NumberOfPages, Attribute}` (40 bytes).  The fixed array
`Mmap[200]` with its length `MmapEntries` is modelled as a `List MemDesc`
whose length is bounded by the theorems' hypotheses. -/

structure MemDesc where
  type : Nat
  physicalStart : Nat
  virtualStart : Nat
  numberOfPages : Nat
  attrib : Nat  -- the C field is named Attribute; that word is a Lean keyword
  deriving DecidableEq, Repr

/-- `EfiConventionalMemory` has value 7 in the UEFI specification. -/
def EfiConventionalMemory : Nat := 7

/-- The byte addresses covered by one descriptor: `[base, base + pages*4096)`. -/
def inSpan (d : MemDesc) (a : Nat) : Prop :=
  d.physicalStart ≤ a ∧ a < d.physicalStart + d.numberOfPages * PAGE_SIZE

instance (d : MemDesc) (a : Nat) : Decidable (inSpan d a) := by
  unfold inSpan; infer_instance

/-- The union of byte addresses covered by a region table. -/
def coveredBy (l : List MemDesc) (a : Nat) : Prop :=
  ∃ d ∈ l, inSpan d a

/-- Embeds the body of the normalization loop of `InitMemmap` (app.c 147-183)
for a single descriptor: the `ConventionalMemory` filter, the too-small
filter, the sub-4-GiB firmware-adjacent filter, and the alignment step

    NumberOfPages -= PAGES_16M;
    NumberOfPages += (PhysicalStart & (ADDR_16M - 1)) / PAGES_16M;
    NumberOfPages &= ~(PAGES_16M - 1);
    PhysicalStart += ADDR_16M - 1;
    PhysicalStart &= ~(ADDR_16M - 1);

written with `x & ~(2^k - 1)` as `x / 2^k * 2^k` (equal for the 64-bit
values in play).  `appAddr` is the address of `InitMemmap` itself, used by
the firmware-adjacent filter.  Returns `none` when the descriptor is
filtered out. -/
def normalizeDesc (appAddr : Nat) (d : MemDesc) : Option MemDesc :=
  if d.type ≠ EfiConventionalMemory then none
  else if d.numberOfPages < PAGES_16M then none
  else if d.physicalStart < ADDR_4G ∧ d.physicalStart > appAddr then none
  else
    let pages1 := d.numberOfPages - PAGES_16M + (d.physicalStart % ADDR_16M) / PAGES_16M
    let pages2 := pages1 / PAGES_16M * PAGES_16M
    let base' := (d.physicalStart + (ADDR_16M - 1)) / ADDR_16M * ADDR_16M
    if pages2 < PAGES_16M then none
    else some { d with physicalStart := base', numberOfPages := pages2 }

/-- Embeds the whole defragmentation loop of `InitMemmap` (app.c 147-184):
surviving descriptors are copied into the table in iteration order. -/
def initMemmap (appAddr : Nat) (descs : List MemDesc) : List MemDesc :=
  descs.filterMap (normalizeDesc appAddr)

/-- Embeds `ExcludeRange` (app.c 206-285) on the list model of `Mmap`.
The `Assert` macro halts the machine; a failed assertion is modelled as
`none`.  The four cases keep the source's order: whole entry (case 3 in the
source comment), tail (case 1), head (case 2), middle split (case 4);
`CopyMem` shifts become list splices. -/
def excludeRange (l : List MemDesc) (i : Nat) (base numPages : Nat) :
    Option (List MemDesc) :=
  match l[i]? with
  | none => none
  | some orig =>
    if ¬ orig.physicalStart ≤ base then none
    else if ¬ numPages ≤ orig.numberOfPages then none
    else if ¬ base + numPages * PAGE_SIZE ≤
             orig.physicalStart + orig.numberOfPages * PAGE_SIZE then none
    else if base = orig.physicalStart ∧ numPages = orig.numberOfPages then
      if ¬ 1 < l.length then none
      else some (l.take i ++ l.drop (i + 1))
    else if base + numPages * PAGE_SIZE =
            orig.physicalStart + orig.numberOfPages * PAGE_SIZE then
      some (l.set i { orig with numberOfPages := orig.numberOfPages - numPages })
    else if base = orig.physicalStart ∧ numPages ≠ orig.numberOfPages then
      some (l.set i { orig with
        numberOfPages := orig.numberOfPages - numPages,
        physicalStart := orig.physicalStart + numPages * PAGE_SIZE })
    else
      if ¬ l.length < MEMORY_DESC_MAX then none
      else
        let e0 := { orig with
          numberOfPages := (base - orig.physicalStart) / PAGE_SIZE }
        let e1 := { orig with
          physicalStart := base + numPages * PAGE_SIZE,
          numberOfPages := orig.numberOfPages - e0.numberOfPages - numPages }
        some (l.take i ++ e0 :: e1 :: l.drop (i + 1))

/-! ## The Exclude scan step (src/app.c lines 287-327)

The inner loop body of `ExcludeOneEntry` maintains `WasSame`, `First`
(sentinel `(UINT64)-1` when clear) and may issue one `ExcludeRange` call.
`excludeStep` embeds one iteration for one word: `firstWord` is the flag
`P == 0 && Q == 0`, `ptr` the current word address, `obs` the word read from
memory, `expected` the `Pattern()` value.  It returns the new
`(WasSame, First)` and the `(Base, NumPages)` argument of the
`ExcludeRange` call when one is made.  `x & ~(UINT64)(PAGE_SIZE-1)` is
written `x / PAGE_SIZE * PAGE_SIZE`. -/

/-- The `First = (UINT64)-1` sentinel. -/
def FIRST_CLEAR : Nat := 2 ^ 64 - 1

/-- One iteration of the `ExcludeOneEntry` scan (app.c 296-319). -/
def excludeStep (firstWord wasSame : Bool) (first ptr obs expected : Nat) :
    Bool × Nat × Option (Nat × Nat) :=
  if obs ≠ expected then
    let first' := if wasSame = true ∨ firstWord then ptr / PAGE_SIZE * PAGE_SIZE else first
    (false, first', none)
  else
    if wasSame = false then
      let last := (ptr + PAGE_SIZE - 1) / PAGE_SIZE * PAGE_SIZE
      (true, FIRST_CLEAR, some (first, (last - first) / PAGE_SIZE))
    else
      (true, first, none)

/-! ## The Compare phase (src/app.c lines 329-361, 665-697)

The statistics globals `ZeroToOne[64]`, `OneToZero[64]`, `Compared` become
a record; physical memory becomes a function from word address to word
value. -/

structure CmpStats where
  zeroToOne : List Nat
  oneToZero : List Nat
  compared : Nat
  deriving DecidableEq, Repr

/-- The zero-initialized statics (app.c 329-332). -/
def zeroStats : CmpStats :=
  { zeroToOne := List.replicate 64 0, oneToZero := List.replicate 64 0, compared := 0 }

/-- One iteration of the per-bit tally loop (app.c 343-352): with
`Tmp = 1 << I`, if `delta & Tmp` is set, increment `ZeroToOne[I]` when the
observed word has the bit set, else `OneToZero[I]`. -/
def tallyStep (delta obs : Nat) (st : CmpStats) (i : Nat) : CmpStats :=
  let tmp := 1 <<< i
  if delta &&& tmp ≠ 0 then
    if obs &&& tmp ≠ 0 then
      { st with zeroToOne := st.zeroToOne.set i (st.zeroToOne.getD i 0 + 1) }
    else
      { st with oneToZero := st.oneToZero.set i (st.oneToZero.getD i 0 + 1) }
  else st

/-- The whole per-bit tally loop, `I = 0 .. 63`.  `delta` is
`Expected ^= *Ptr`. -/
def tallyBits (delta obs : Nat) (s : CmpStats) : CmpStats :=
  (List.range 64).foldl (tallyStep delta obs) s

/-- Embeds the per-word comparison (app.c 340-353). -/
def compareWord (s : CmpStats) (obs expected : Nat) : CmpStats :=
  if obs ≠ expected then tallyBits (expected ^^^ obs) obs s else s

/-- Embeds the inner `Q` loop of `CompareOneEntry`: `n` words starting at
word address `ptr`, generator state `lfsr`.  Returns the statistics and the
generator state. -/
def compareWords (mem : Nat → Nat) : Nat → Nat → Nat → CmpStats → CmpStats × Nat
  | 0, _, lfsr, s => (s, lfsr)
  | n + 1, ptr, lfsr, s =>
    let e := Pattern lfsr
    compareWords mem n (ptr + 8) e.2 (compareWord s (mem ptr) e.1)

/-- One page of `CompareOneEntry` (app.c 336-358): `StirPattern` with the
page address, then 512 word comparisons. -/
def comparePage (mem : Nat → Nat) (pageBase lfsr : Nat) (s : CmpStats) :
    CmpStats × Nat :=
  compareWords mem (PAGE_SIZE / 8) pageBase (StirPattern lfsr pageBase) s

/-- Embeds `CompareOneEntry` (app.c 334-361): all pages of one descriptor,
then `Compared += NumberOfPages * PAGE_SIZE * 8`. -/
def compareEntry (mem : Nat → Nat) (d : MemDesc) (lfsr : Nat) (s : CmpStats) :
    CmpStats × Nat :=
  let r := (List.range d.numberOfPages).foldl
    (fun (acc : CmpStats × Nat) p =>
      comparePage mem (d.physicalStart + p * PAGE_SIZE) acc.2 acc.1)
    (s, lfsr)
  ({ r.1 with compared := r.1.compared + d.numberOfPages * PAGE_SIZE * 8 }, r.2)

/-- Embeds the Compare-phase loop of `efi_main` (app.c 676-678). -/
def comparePhase (mem : Nat → Nat) (l : List MemDesc) (lfsr : Nat) (s : CmpStats) :
    CmpStats × Nat :=
  l.foldl (fun acc d => compareEntry mem d acc.2 acc.1) (s, lfsr)

/-- Embeds the `Differences` accumulation of `efi_main` (app.c 692-697):
the sum over all bits of `ZeroToOne[I] + OneToZero[I]`. -/
def differences (s : CmpStats) : Nat :=
  (List.range 64).foldl (fun acc i => acc + (s.zeroToOne.getD i 0 + s.oneToZero.getD i 0)) 0

/-! ## Persistence (src/app.c lines 654-674)

The Exclude phase stores the raw bytes of `MmapEntries *
sizeof(EFI_MEMORY_DESCRIPTOR)` of `Mmap` in the NV variable; the Compare
phase loads them, asserts the size is a multiple of the descriptor size and
derives `MmapEntries` by division.  Bytes are modelled as a `List Nat`
(each < 256); the descriptor layout is Type (4 bytes), Pad (4 zero bytes),
then four little-endian 8-byte fields. -/

def DESC_BYTES : Nat := 40

/-- `w` little-endian bytes of `v`. -/
def bytesLE : Nat → Nat → List Nat
  | 0, _ => []
  | w + 1, v => v % 256 :: bytesLE w (v / 256)

/-- Recombine little-endian bytes. -/
def fromBytesLE : List Nat → Nat
  | [] => 0
  | b :: bs => b + 256 * fromBytesLE bs

/-- The 40-byte in-memory image of one descriptor. -/
def encodeDesc (d : MemDesc) : List Nat :=
  bytesLE 4 d.type ++ bytesLE 4 0 ++ bytesLE 8 d.physicalStart ++
    bytesLE 8 d.virtualStart ++ bytesLE 8 d.numberOfPages ++ bytesLE 8 d.attrib

/-- Embeds the `SetVariable` payload at the end of Exclude (app.c 660-662):
the raw bytes of the active prefix of `Mmap`. -/
def saveTable : List MemDesc → List Nat
  | [] => []
  | d :: t => encodeDesc d ++ saveTable t

/-- Decode one 40-byte descriptor image. -/
def decodeDesc (bs : List Nat) : MemDesc :=
  { type := fromBytesLE (bs.take 4)
    physicalStart := fromBytesLE ((bs.drop 8).take 8)
    virtualStart := fromBytesLE ((bs.drop 16).take 8)
    numberOfPages := fromBytesLE ((bs.drop 24).take 8)
    attrib := fromBytesLE ((bs.drop 32).take 8) }

/-- Decode `n` consecutive descriptors; descriptor `i` is read from byte
offset `40 * i`. -/
def decodeList : Nat → List Nat → List MemDesc
  | 0, _ => []
  | n + 1, bs => decodeDesc bs :: decodeList n (bs.drop DESC_BYTES)

/-- Embeds the `GetVariable` load at the start of Compare (app.c 668-673):
assert `VarSize % sizeof(EFI_MEMORY_DESCRIPTOR) == 0` (modelled as `none` on
failure) and derive the entry count by division. -/
def loadTable (bs : List Nat) : Option (List MemDesc) :=
  if bs.length % DESC_BYTES = 0 then some (decodeList (bs.length / DESC_BYTES) bs)
  else none

/-! ## List splice helpers -/

lemma take_cons_drop (l : List MemDesc) (i : Nat) (h : i < l.length) :
    l.take i ++ l[i] :: l.drop (i + 1) = l := by
  induction l generalizing i with
  | nil => simp at h
  | cons x xs ih =>
    cases i with
    | zero => simp
    | succ n =>
      have hn : n < xs.length := by simpa using h
      simp [ih n hn]

lemma set_splice (l : List MemDesc) (i : Nat) (x : MemDesc) (h : i < l.length) :
    l.set i x = l.take i ++ x :: l.drop (i + 1) := by
  induction l generalizing i with
  | nil => simp at h
  | cons y xs ih =>
    cases i with
    | zero => simp
    | succ n =>
      have hn : n < xs.length := by simpa using h
      simpa using ih n hn

lemma coveredBy_nil (a : Nat) : coveredBy [] a ↔ False := by
  simp [coveredBy]

lemma coveredBy_cons (d : MemDesc) (t : List MemDesc) (a : Nat) :
    coveredBy (d :: t) a ↔ inSpan d a ∨ coveredBy t a := by
  simp [coveredBy]

lemma coveredBy_append (u v : List MemDesc) (a : Nat) :
    coveredBy (u ++ v) a ↔ coveredBy u a ∨ coveredBy v a := by
  constructor
  · rintro ⟨d, hd, hs⟩
    rcases List.mem_append.mp hd with h | h
    · exact Or.inl ⟨d, h, hs⟩
    · exact Or.inr ⟨d, h, hs⟩
  · rintro (⟨d, hd, hs⟩ | ⟨d, hd, hs⟩)
    · exact ⟨d, List.mem_append.mpr (Or.inl hd), hs⟩
    · exact ⟨d, List.mem_append.mpr (Or.inr hd), hs⟩

/-- Replacing one entry by a list covering exactly the entry minus the
excised addresses turns the covered-address union of the table into the
union after plus the excised range. -/
lemma coveredBy_splice (pre suf mid : List MemDesc) (orig : MemDesc)
    (exc : Nat → Prop)
    (h : ∀ a, inSpan orig a ↔ coveredBy mid a ∨ exc a) (a : Nat) :
    coveredBy (pre ++ orig :: suf) a ↔ coveredBy (pre ++ (mid ++ suf)) a ∨ exc a := by
  rw [coveredBy_append, coveredBy_cons, coveredBy_append, coveredBy_append, h a]
  tauto

/-- Claim C1: for every region table of length in `[1, 200]` and every legal
call `remove_range(i, base, pages)` (the region contains the page-aligned
sub-range, the table does not become empty on a whole-region removal and
does not overflow on a middle split), the union of addresses covered by the
table before equals the union after plus the excised sub-range, and the
length stays in `[1, 200]`. -/
theorem excludeRange_union (l : List MemDesc) (i base numPages : Nat)
    (hi : i < l.length)
    (hlen2 : l.length ≤ MEMORY_DESC_MAX)
    (hbase : l[i].physicalStart ≤ base)
    (hcontain : base + numPages * PAGE_SIZE ≤
      l[i].physicalStart + l[i].numberOfPages * PAGE_SIZE)
    (halignB : PAGE_SIZE ∣ l[i].physicalStart)
    (halign : PAGE_SIZE ∣ base)
    (hwhole : base = l[i].physicalStart ∧ numPages = l[i].numberOfPages →
      1 < l.length)
    (hmid : l[i].physicalStart < base ∧
        base + numPages * PAGE_SIZE <
          l[i].physicalStart + l[i].numberOfPages * PAGE_SIZE →
      l.length < MEMORY_DESC_MAX) :
    ∃ l', excludeRange l i base numPages = some l' ∧
      (∀ a, coveredBy l a ↔
        coveredBy l' a ∨ (base ≤ a ∧ a < base + numPages * PAGE_SIZE)) ∧
      1 ≤ l'.length ∧ l'.length ≤ MEMORY_DESC_MAX := by
  have hget : l[i]? = some l[i] := List.getElem?_eq_getElem hi
  have hnp : numPages ≤ l[i].numberOfPages := by
    simp only [PAGE_SIZE] at hbase hcontain
    omega
  have hl : l.take i ++ l[i] :: l.drop (i + 1) = l := take_cons_drop l i hi
  simp only [excludeRange, hget]
  rw [if_neg (not_not_intro hbase), if_neg (not_not_intro hnp),
    if_neg (not_not_intro hcontain)]
  by_cases hc3 : base = l[i].physicalStart ∧ numPages = l[i].numberOfPages
  · -- case 3: whole region removed
    rw [if_pos hc3, if_neg (not_not_intro (hwhole hc3))]
    refine ⟨_, rfl, ?_, ?_, ?_⟩
    · intro a
      have hspan : ∀ a, inSpan l[i] a ↔
          coveredBy [] a ∨ (base ≤ a ∧ a < base + numPages * PAGE_SIZE) := by
        intro a
        rw [coveredBy_nil]
        obtain ⟨hb, hn⟩ := hc3
        simp only [inSpan, PAGE_SIZE_eq, false_or]
        omega
      have := coveredBy_splice (l.take i) (l.drop (i + 1)) [] l[i] _ hspan a
      rw [hl] at this
      simpa using this
    · simp only [List.length_append, List.length_take, List.length_drop]
      have := hwhole hc3
      omega
    · simp only [List.length_append, List.length_take, List.length_drop]
      omega
  · rw [if_neg hc3]
    by_cases hc1 : base + numPages * PAGE_SIZE =
        l[i].physicalStart + l[i].numberOfPages * PAGE_SIZE
    · -- case 1: tail removal
      rw [if_pos hc1]
      refine ⟨_, rfl, ?_, ?_, ?_⟩
      · intro a
        rw [set_splice l i _ hi]
        have hspan : ∀ a, inSpan l[i] a ↔
            coveredBy [{ l[i] with numberOfPages := l[i].numberOfPages - numPages }] a ∨
              (base ≤ a ∧ a < base + numPages * PAGE_SIZE) := by
          intro a
          rw [coveredBy_cons, coveredBy_nil]
          simp only [inSpan, PAGE_SIZE_eq, or_false] at hc1 hcontain ⊢
          omega
        have := coveredBy_splice (l.take i) (l.drop (i + 1)) _ l[i] _ hspan a
        rw [hl] at this
        simpa using this
      · simp only [List.length_set]; omega
      · simp only [List.length_set]; omega
    · rw [if_neg hc1]
      by_cases hc2 : base = l[i].physicalStart ∧ numPages ≠ l[i].numberOfPages
      · -- case 2: head removal
        rw [if_pos hc2]
        refine ⟨_, rfl, ?_, ?_, ?_⟩
        · intro a
          rw [set_splice l i _ hi]
          obtain ⟨hb, _⟩ := hc2
          have hspan : ∀ a, inSpan l[i] a ↔
              coveredBy [{ l[i] with
                numberOfPages := l[i].numberOfPages - numPages,
                physicalStart := l[i].physicalStart + numPages * PAGE_SIZE }] a ∨
                (base ≤ a ∧ a < base + numPages * PAGE_SIZE) := by
            intro a
            rw [coveredBy_cons, coveredBy_nil]
            simp only [inSpan, PAGE_SIZE_eq, or_false] at hcontain ⊢
            omega
          have := coveredBy_splice (l.take i) (l.drop (i + 1)) _ l[i] _ hspan a
          rw [hl] at this
          simpa using this
        · simp only [List.length_set]; omega
        · simp only [List.length_set]; omega
      · -- case 4: middle split
        rw [if_neg hc2]
        have hbs : l[i].physicalStart < base := by
          rcases Nat.lt_or_ge l[i].physicalStart base with h | h
          · exact h
          · have hbe : base = l[i].physicalStart := Nat.le_antisymm (by omega) hbase
            by_cases hn : numPages = l[i].numberOfPages
            · exact absurd ⟨hbe, hn⟩ hc3
            · exact absurd ⟨hbe, hn⟩ hc2
        have hend : base + numPages * PAGE_SIZE <
            l[i].physicalStart + l[i].numberOfPages * PAGE_SIZE :=
          Nat.lt_of_le_of_ne hcontain hc1
        rw [if_neg (not_not_intro (hmid ⟨hbs, hend⟩))]
        have hdvd : PAGE_SIZE ∣ (base - l[i].physicalStart) :=
          Nat.dvd_sub' halign halignB
        have hq : (base - l[i].physicalStart) / PAGE_SIZE * PAGE_SIZE =
            base - l[i].physicalStart := Nat.div_mul_cancel hdvd
        refine ⟨_, rfl, ?_, ?_, ?_⟩
        · intro a
          have hspan : ∀ a, inSpan l[i] a ↔
              coveredBy [{ l[i] with
                  numberOfPages := (base - l[i].physicalStart) / PAGE_SIZE },
                { l[i] with
                  physicalStart := base + numPages * PAGE_SIZE,
                  numberOfPages := l[i].numberOfPages -
                    (base - l[i].physicalStart) / PAGE_SIZE - numPages }] a ∨
                (base ≤ a ∧ a < base + numPages * PAGE_SIZE) := by
            intro a
            rw [coveredBy_cons, coveredBy_cons, coveredBy_nil]
            simp only [inSpan, PAGE_SIZE_eq, or_false] at hq hcontain hbs ⊢
            generalize hqq : (base - l[i].physicalStart) / 4096 = q
            rw [hqq] at hq
            omega
          have := coveredBy_splice (l.take i) (l.drop (i + 1)) _ l[i] _ hspan a
          rw [hl] at this
          simpa using this
        · simp only [List.length_append, List.length_take, List.length_drop,
            List.length_cons]
          omega
        · have := hmid ⟨hbs, hend⟩
          simp only [List.length_append, List.length_take, List.length_drop,
            List.length_cons]
          omega

/-- Witness for claim C1: a concrete middle split of a 3-page region. -/
theorem excludeRange_union_witness :
    excludeRange [⟨7, 0, 0, 3, 0⟩] 0 4096 1 =
      some [⟨7, 0, 0, 1, 0⟩, ⟨7, 8192, 0, 1, 0⟩] ∧
    (coveredBy [⟨7, 0, 0, 3, 0⟩] 5000 ↔
      coveredBy [⟨7, 0, 0, 1, 0⟩, ⟨7, 8192, 0, 1, 0⟩] 5000 ∨
        (4096 ≤ 5000 ∧ 5000 < 4096 + 1 * PAGE_SIZE)) ∧
    1 ≤ ([⟨7, 0, 0, 1, 0⟩, ⟨7, 8192, 0, 1, 0⟩] : List MemDesc).length ∧
    ([⟨7, 0, 0, 1, 0⟩, ⟨7, 8192, 0, 1, 0⟩] : List MemDesc).length ≤
      MEMORY_DESC_MAX := by
  obtain ⟨l', h1, h2, h3, h4⟩ :=
    excludeRange_union [⟨7, 0, 0, 3, 0⟩] 0 4096 1 (by decide) (by decide)
      (by decide) (by decide) (by decide) (by decide) (by decide) (by decide)
  have hcomp : excludeRange [⟨7, 0, 0, 3, 0⟩] 0 4096 1 =
      some [⟨7, 0, 0, 1, 0⟩, ⟨7, 8192, 0, 1, 0⟩] := by decide
  have he : l' = [⟨7, 0, 0, 1, 0⟩, ⟨7, 8192, 0, 1, 0⟩] :=
    Option.some.inj (h1.symm.trans hcomp)
  subst he
  exact ⟨hcomp, h2 5000, h3, h4⟩

lemma take_splice_eq (l : List MemDesc) (i : Nat) (rest : List MemDesc)
    (h : i < l.length) : (l.take i ++ rest).take i = l.take i := by
  rw [List.take_append_of_le_length (by simp [List.length_take]; omega)]
  simp [List.take_take]

/-- Claim C8: a legal `remove_range(i, base, pages)` never invalidates an
enclosing iteration: entries at indices strictly below `i` are unchanged in
all four cases, and a middle split only inserts a new entry after index `i`
(slot `i` keeps the left half of the original region). -/
theorem excludeRange_frame (l : List MemDesc) (i base numPages : Nat)
    (hi : i < l.length)
    (hbase : l[i].physicalStart ≤ base)
    (hcontain : base + numPages * PAGE_SIZE ≤
      l[i].physicalStart + l[i].numberOfPages * PAGE_SIZE)
    (hwhole : base = l[i].physicalStart ∧ numPages = l[i].numberOfPages →
      1 < l.length)
    (hmid : l[i].physicalStart < base ∧
        base + numPages * PAGE_SIZE <
          l[i].physicalStart + l[i].numberOfPages * PAGE_SIZE →
      l.length < MEMORY_DESC_MAX) :
    ∃ l', excludeRange l i base numPages = some l' ∧
      l'.take i = l.take i ∧
      (l[i].physicalStart < base ∧
          base + numPages * PAGE_SIZE <
            l[i].physicalStart + l[i].numberOfPages * PAGE_SIZE →
        l' = l.take i ++
          { l[i] with numberOfPages := (base - l[i].physicalStart) / PAGE_SIZE } ::
          { l[i] with
            physicalStart := base + numPages * PAGE_SIZE,
            numberOfPages := l[i].numberOfPages -
              (base - l[i].physicalStart) / PAGE_SIZE - numPages } ::
          l.drop (i + 1)) := by
  have hget : l[i]? = some l[i] := List.getElem?_eq_getElem hi
  have hnp : numPages ≤ l[i].numberOfPages := by
    simp only [PAGE_SIZE_eq] at hbase hcontain
    omega
  simp only [excludeRange, hget]
  rw [if_neg (not_not_intro hbase), if_neg (not_not_intro hnp),
    if_neg (not_not_intro hcontain)]
  by_cases hc3 : base = l[i].physicalStart ∧ numPages = l[i].numberOfPages
  · rw [if_pos hc3, if_neg (not_not_intro (hwhole hc3))]
    refine ⟨_, rfl, take_splice_eq l i _ hi, ?_⟩
    rintro ⟨hlt, -⟩
    exact absurd hc3.1 (by omega)
  · rw [if_neg hc3]
    by_cases hc1 : base + numPages * PAGE_SIZE =
        l[i].physicalStart + l[i].numberOfPages * PAGE_SIZE
    · rw [if_pos hc1]
      refine ⟨_, rfl, ?_, ?_⟩
      · rw [set_splice l i _ hi]
        exact take_splice_eq l i _ hi
      · rintro ⟨-, hlt⟩
        exact absurd hc1 (by omega)
    · rw [if_neg hc1]
      by_cases hc2 : base = l[i].physicalStart ∧ numPages ≠ l[i].numberOfPages
      · rw [if_pos hc2]
        refine ⟨_, rfl, ?_, ?_⟩
        · rw [set_splice l i _ hi]
          exact take_splice_eq l i _ hi
        · rintro ⟨hlt, -⟩
          exact absurd hc2.1 (by omega)
      · rw [if_neg hc2]
        have hbs : l[i].physicalStart < base := by
          rcases Nat.lt_or_ge l[i].physicalStart base with h | h
          · exact h
          · have hbe : base = l[i].physicalStart :=
              Nat.le_antisymm (by omega) hbase
            by_cases hn : numPages = l[i].numberOfPages
            · exact absurd ⟨hbe, hn⟩ hc3
            · exact absurd ⟨hbe, hn⟩ hc2
        have hend : base + numPages * PAGE_SIZE <
            l[i].physicalStart + l[i].numberOfPages * PAGE_SIZE :=
          Nat.lt_of_le_of_ne hcontain hc1
        rw [if_neg (not_not_intro (hmid ⟨hbs, hend⟩))]
        exact ⟨_, rfl, take_splice_eq l i _ hi, fun _ => rfl⟩

/-- Witness for claim C8: the same concrete middle split, checking the
frame property at index 0. -/
theorem excludeRange_frame_witness :
    excludeRange [⟨7, 4096, 0, 3, 0⟩] 0 8192 1 =
      some [⟨7, 4096, 0, 1, 0⟩, ⟨7, 12288, 0, 1, 0⟩] ∧
    ([⟨7, 4096, 0, 1, 0⟩, ⟨7, 12288, 0, 1, 0⟩] : List MemDesc).take 0 =
      ([⟨7, 4096, 0, 3, 0⟩] : List MemDesc).take 0 := by
  obtain ⟨l', h1, h2, h3⟩ :=
    excludeRange_frame [⟨7, 4096, 0, 3, 0⟩] 0 8192 1 (by decide) (by decide)
      (by decide) (by decide) (by decide)
  have hcomp : excludeRange [⟨7, 4096, 0, 3, 0⟩] 0 8192 1 =
      some [⟨7, 4096, 0, 1, 0⟩, ⟨7, 12288, 0, 1, 0⟩] := by decide
  have he : l' = [⟨7, 4096, 0, 1, 0⟩, ⟨7, 12288, 0, 1, 0⟩] :=
    Option.some.inj (h1.symm.trans hcomp)
  subst he
  exact ⟨hcomp, h2⟩

/-! ## Claims C5 and C6: the memory-map normalizer -/

/-- The new page count asserted by claim C5, written from the claim's words:
old pages minus the pages consumed by rounding the base up to the next
16 MiB boundary, rounded down to a multiple of 4096. -/
def claimPagesC5 (d : MemDesc) : Nat :=
  let base' := (d.physicalStart + (ADDR_16M - 1)) / ADDR_16M * ADDR_16M
  (d.numberOfPages - (base' - d.physicalStart) / PAGE_SIZE) / PAGES_16M * PAGES_16M

/-- The page count the code actually computes, in closed form: old pages
minus `4096 - (base mod 16 MiB)/4096`, rounded down to a multiple of 4096.
It agrees with `claimPagesC5` except when the base is already 16-MiB
aligned, where the code subtracts a full extra 16 MiB. -/
def amendedPagesC5 (d : MemDesc) : Nat :=
  (d.numberOfPages - (PAGES_16M - d.physicalStart % ADDR_16M / PAGES_16M)) /
    PAGES_16M * PAGES_16M

/-- Counterexample to claim C5: a conventional-memory descriptor with an
already 16-MiB-aligned base (4 GiB) and 8192 pages survives the filters, yet
the code keeps only 4096 pages while the claim's formula (no pages are
consumed by rounding an aligned base) yields 8192. -/
theorem normalizeDesc_c5_counterexample :
    normalizeDesc 0 ⟨7, 4294967296, 0, 8192, 0⟩ =
      some ⟨7, 4294967296, 0, 4096, 0⟩ ∧
    claimPagesC5 ⟨7, 4294967296, 0, 8192, 0⟩ = 8192 ∧
    (4096 : Nat) ≠ 8192 := by
  decide

/-- Claim C5 as amended: for every descriptor surviving the type, size and
address filters, the normalizer rounds the base up to the next 16 MiB
boundary (the smallest 16-MiB multiple that is at least the base), sets the
new page count to old pages minus `(4096 - (base mod 16 MiB) / 4096)`
rounded down to a multiple of 4096 — i.e. the claim's value except that an
extra 16 MiB is consumed when the base is already aligned — and drops the
descriptor exactly when that page count is below 4096 pages. -/
theorem normalizeDesc_amended (appAddr : Nat) (d : MemDesc)
    (ht : d.type = EfiConventionalMemory)
    (hp : PAGES_16M ≤ d.numberOfPages)
    (hz : ¬ (d.physicalStart < ADDR_4G ∧ appAddr < d.physicalStart)) :
    normalizeDesc appAddr d =
      (if amendedPagesC5 d < PAGES_16M then none
       else some { d with
         physicalStart := (d.physicalStart + (ADDR_16M - 1)) / ADDR_16M * ADDR_16M,
         numberOfPages := amendedPagesC5 d }) ∧
    d.physicalStart ≤ (d.physicalStart + (ADDR_16M - 1)) / ADDR_16M * ADDR_16M ∧
    (d.physicalStart + (ADDR_16M - 1)) / ADDR_16M * ADDR_16M <
      d.physicalStart + ADDR_16M ∧
    ADDR_16M ∣ (d.physicalStart + (ADDR_16M - 1)) / ADDR_16M * ADDR_16M := by
  refine ⟨?_, ?_, ?_, ⟨_, Nat.mul_comm _ _⟩⟩
  · unfold normalizeDesc amendedPagesC5
    rw [if_neg (by simp [ht]), if_neg (Nat.not_lt.mpr hp), if_neg hz]
    have hpe : d.numberOfPages - PAGES_16M + d.physicalStart % ADDR_16M / PAGES_16M =
        d.numberOfPages - (PAGES_16M - d.physicalStart % ADDR_16M / PAGES_16M) := by
      have hlt : d.physicalStart % ADDR_16M / PAGES_16M < PAGES_16M := by
        have := Nat.mod_lt d.physicalStart (show 0 < ADDR_16M by decide)
        simp only [ADDR_16M_eq, PAGES_16M_eq] at *
        omega
      simp only [PAGES_16M_eq] at *
      omega
    rw [hpe]
  · simp only [ADDR_16M_eq]
    omega
  · simp only [ADDR_16M_eq]
    omega

/-- Witness for the amended claim C5: a descriptor at 4 GiB + 8 MiB with
12288 pages; the rounding consumes 2048 pages and the down-rounding keeps
8192 of the remaining 10240. -/
theorem normalizeDesc_amended_witness :
    normalizeDesc 0 ⟨7, 4303355904, 0, 12288, 0⟩ =
      (if amendedPagesC5 ⟨7, 4303355904, 0, 12288, 0⟩ < PAGES_16M then none
       else some ⟨7, (4303355904 + (ADDR_16M - 1)) / ADDR_16M * ADDR_16M, 0,
         amendedPagesC5 ⟨7, 4303355904, 0, 12288, 0⟩, 0⟩) ∧
    4303355904 ≤ (4303355904 + (ADDR_16M - 1)) / ADDR_16M * ADDR_16M ∧
    (4303355904 + (ADDR_16M - 1)) / ADDR_16M * ADDR_16M < 4303355904 + ADDR_16M ∧
    ADDR_16M ∣ (4303355904 + (ADDR_16M - 1)) / ADDR_16M * ADDR_16M :=
  normalizeDesc_amended 0 ⟨7, 4303355904, 0, 12288, 0⟩ (by decide) (by decide)
    (by decide)

/-- Two descriptors whose address spans share no byte. -/
def noOverlap (d1 d2 : MemDesc) : Prop :=
  ∀ a, ¬ (inSpan d1 a ∧ inSpan d2 a)

/-- A normalized descriptor satisfies the alignment invariants and covers
only addresses of the descriptor it came from. -/
lemma normalizeDesc_some_props (appAddr : Nat) (d d' : MemDesc)
    (h : normalizeDesc appAddr d = some d') :
    ADDR_16M ∣ d'.physicalStart ∧ PAGES_16M ∣ d'.numberOfPages ∧
      PAGES_16M ≤ d'.numberOfPages ∧ ∀ a, inSpan d' a → inSpan d a := by
  unfold normalizeDesc at h
  by_cases h1 : d.type ≠ EfiConventionalMemory
  · rw [if_pos h1] at h; exact absurd h (by simp)
  rw [if_neg h1] at h
  by_cases h2 : d.numberOfPages < PAGES_16M
  · rw [if_pos h2] at h; exact absurd h (by simp)
  rw [if_neg h2] at h
  by_cases h3 : d.physicalStart < ADDR_4G ∧ d.physicalStart > appAddr
  · rw [if_pos h3] at h; exact absurd h (by simp)
  rw [if_neg h3] at h
  simp only at h
  by_cases h4 : (d.numberOfPages - PAGES_16M + d.physicalStart % ADDR_16M / PAGES_16M) /
      PAGES_16M * PAGES_16M < PAGES_16M
  · rw [if_pos h4] at h; exact absurd h (by simp)
  rw [if_neg h4] at h
  have hd : d' = { d with
      physicalStart := (d.physicalStart + (ADDR_16M - 1)) / ADDR_16M * ADDR_16M,
      numberOfPages := (d.numberOfPages - PAGES_16M +
        d.physicalStart % ADDR_16M / PAGES_16M) / PAGES_16M * PAGES_16M } :=
    (Option.some.inj h).symm
  subst hd
  refine ⟨⟨_, Nat.mul_comm _ _⟩, ⟨_, Nat.mul_comm _ _⟩, Nat.not_lt.mp h4, ?_⟩
  intro a ha
  simp only [inSpan, PAGE_SIZE_eq, ADDR_16M_eq, PAGES_16M_eq] at *
  omega

/-- Claim C6: after the normalizer completes, every region in the table has
a 16-MiB-aligned base, a page count that is a multiple of 4096 and at least
4096, and — provided the firmware-reported descriptors were themselves
non-overlapping — no two regions in the table overlap. -/
theorem initMemmap_invariants (appAddr : Nat) (descs : List MemDesc)
    (hdisj : descs.Pairwise noOverlap) :
    (∀ d ∈ initMemmap appAddr descs,
      ADDR_16M ∣ d.physicalStart ∧ PAGES_16M ∣ d.numberOfPages ∧
        PAGES_16M ≤ d.numberOfPages) ∧
    (initMemmap appAddr descs).Pairwise noOverlap := by
  constructor
  · intro d hd
    obtain ⟨d0, _, h0⟩ := List.mem_filterMap.mp hd
    obtain ⟨ha, hb, hc, _⟩ := normalizeDesc_some_props appAddr d0 d h0
    exact ⟨ha, hb, hc⟩
  · refine hdisj.filterMap (normalizeDesc appAddr) ?_
    intro a a' hno b hb b' hb'
    intro x hx
    obtain ⟨-, -, -, hsub⟩ := normalizeDesc_some_props appAddr a b hb
    obtain ⟨-, -, -, hsub'⟩ := normalizeDesc_some_props appAddr a' b' hb'
    exact hno x ⟨hsub x hx.1, hsub' x hx.2⟩

/-- Witness for claim C6: two concrete disjoint firmware descriptors, one
unaligned; the normalized table keeps the invariants and stays disjoint. -/
theorem initMemmap_invariants_witness :
    (∀ d ∈ initMemmap 0 [⟨7, 4294967296, 0, 8192, 0⟩, ⟨7, 4366729216, 0, 12288, 0⟩],
      ADDR_16M ∣ d.physicalStart ∧ PAGES_16M ∣ d.numberOfPages ∧
        PAGES_16M ≤ d.numberOfPages) ∧
    (initMemmap 0 [⟨7, 4294967296, 0, 8192, 0⟩, ⟨7, 4366729216, 0, 12288, 0⟩]).Pairwise
      noOverlap := by
  refine initMemmap_invariants 0 _ ?_
  refine List.Pairwise.cons ?_ (List.Pairwise.cons (by simp) List.Pairwise.nil)
  intro d hd
  have : d = ⟨7, 4366729216, 0, 12288, 0⟩ := by
    simpa using hd
  subst this
  intro a
  simp only [inSpan, PAGE_SIZE_eq]
  omega

/-! ## Claim C7: the Exclude scan's different-to-same transition -/

/-- The `last` value asserted by claim C7, written from the claim's words:
`(p + 4096)` rounded down to a page boundary. -/
def claimLastC7 (p : Nat) : Nat := (p + PAGE_SIZE) / PAGE_SIZE * PAGE_SIZE

/-- Counterexample to claim C7: at a page-aligned pointer `p = 4096` with
the scan in the differing state (`first_bad = 0`) and a matching word, the
code computes `last = (p + 4096 - 1)` rounded down, i.e. `4096`, and calls
`remove_range` with one page; the claim's `last = (p + 4096)` rounded down
is `8192`, which would demand two pages. -/
theorem excludeStep_c7_counterexample :
    excludeStep false false 0 4096 5 5 = (true, FIRST_CLEAR, some (0, 1)) ∧
    claimLastC7 4096 = 8192 ∧ (8192 - 0) / PAGE_SIZE = 2 ∧ (2 : Nat) ≠ 1 := by
  decide

/-- Claim C7 as amended: on every transition from differing to matching at
word pointer `p` the engine computes `last = (p + 4096 - 1)` rounded down to
a page boundary — which agrees with the claim's `(p + 4096)` rounded down
except when `p` is itself page-aligned, where it is `p` — calls
`remove_range(i, first_bad, (last - first_bad) / 4096)`, and clears
`first_bad` to the sentinel. -/
theorem excludeStep_amended (firstWord : Bool) (first ptr obs expected : Nat)
    (hobs : obs = expected) :
    excludeStep firstWord false first ptr obs expected =
      (true, FIRST_CLEAR,
        some (first,
          ((ptr + PAGE_SIZE - 1) / PAGE_SIZE * PAGE_SIZE - first) / PAGE_SIZE)) ∧
    (¬ PAGE_SIZE ∣ ptr →
      (ptr + PAGE_SIZE - 1) / PAGE_SIZE * PAGE_SIZE = claimLastC7 ptr) ∧
    (PAGE_SIZE ∣ ptr → (ptr + PAGE_SIZE - 1) / PAGE_SIZE * PAGE_SIZE = ptr) := by
  refine ⟨?_, ?_, ?_⟩
  · subst hobs
    simp [excludeStep]
  · intro hnd
    have hm : ptr % PAGE_SIZE ≠ 0 := fun h => hnd (Nat.dvd_of_mod_eq_zero h)
    unfold claimLastC7
    simp only [PAGE_SIZE_eq] at hm ⊢
    omega
  · intro hd
    obtain ⟨k, hk⟩ := hd
    subst hk
    simp only [PAGE_SIZE_eq]
    omega

/-- Witness for the amended claim C7: a mid-page transition at pointer
`4104` with `first_bad = 0`. -/
theorem excludeStep_amended_witness :
    (excludeStep false false 0 4104 9 9 =
      (true, FIRST_CLEAR,
        some (0, ((4104 + PAGE_SIZE - 1) / PAGE_SIZE * PAGE_SIZE - 0) / PAGE_SIZE)) ∧
    (¬ PAGE_SIZE ∣ 4104 →
      (4104 + PAGE_SIZE - 1) / PAGE_SIZE * PAGE_SIZE = claimLastC7 4104) ∧
    (PAGE_SIZE ∣ 4104 → (4104 + PAGE_SIZE - 1) / PAGE_SIZE * PAGE_SIZE = 4104)) :=
  excludeStep_amended false 0 4104 9 9 (by decide)

/-! ## Claim C9: Compare-phase statistics bounds -/

/-- The per-bit total `zero_to_one[b] + one_to_zero[b]`. -/
def sumAt (s : CmpStats) (b : Nat) : Nat :=
  s.zeroToOne.getD b 0 + s.oneToZero.getD b 0

lemma getD_set_self (l : List Nat) (i v : Nat) :
    (l.set i v).getD i 0 = if i < l.length then v else 0 := by
  rw [List.getD_eq_getElem?_getD, List.getElem?_set]
  by_cases h : i < l.length
  · simp [h]
  · simp [h, List.getElem?_eq_none (by omega : l.length ≤ i)]

lemma getD_set_ne (l : List Nat) (i j v : Nat) (h : i ≠ j) :
    (l.set i v).getD j 0 = l.getD j 0 := by
  rw [List.getD_eq_getElem?_getD, List.getElem?_set_ne h,
    ← List.getD_eq_getElem?_getD]

lemma tallyStep_props (delta obs : Nat) (st : CmpStats) (i : Nat) :
    (tallyStep delta obs st i).zeroToOne.length = st.zeroToOne.length ∧
    (tallyStep delta obs st i).oneToZero.length = st.oneToZero.length ∧
    (tallyStep delta obs st i).compared = st.compared ∧
    ∀ b, sumAt (tallyStep delta obs st i) b ≤
      sumAt st b + (if b = i then 1 else 0) := by
  unfold tallyStep
  by_cases h1 : delta &&& (1 <<< i) ≠ 0
  · by_cases h2 : obs &&& (1 <<< i) ≠ 0
    · simp only [if_pos h1, if_pos h2]
      refine ⟨by simp, trivial, trivial, ?_⟩
      intro b
      unfold sumAt
      by_cases hbi : b = i
      · subst hbi
        simp only [getD_set_self]
        split_ifs <;> omega
      · simp only [getD_set_ne _ _ _ _ (fun h => hbi h.symm)]
        omega
    · simp only [if_pos h1, if_neg h2]
      refine ⟨trivial, by simp, trivial, ?_⟩
      intro b
      unfold sumAt
      by_cases hbi : b = i
      · subst hbi
        simp only [getD_set_self]
        split_ifs <;> omega
      · simp only [getD_set_ne _ _ _ _ (fun h => hbi h.symm)]
        omega
  · simp only [if_neg h1]
    exact ⟨trivial, trivial, trivial, fun b => by split_ifs <;> omega⟩

lemma tallyFold_props (delta obs : Nat) (s : CmpStats) (n : Nat) :
    ((List.range n).foldl (tallyStep delta obs) s).zeroToOne.length =
      s.zeroToOne.length ∧
    ((List.range n).foldl (tallyStep delta obs) s).oneToZero.length =
      s.oneToZero.length ∧
    ((List.range n).foldl (tallyStep delta obs) s).compared = s.compared ∧
    ∀ b, sumAt ((List.range n).foldl (tallyStep delta obs) s) b ≤
      sumAt s b + (if b < n then 1 else 0) := by
  induction n with
  | zero => exact ⟨rfl, rfl, rfl, fun b => by simp⟩
  | succ n ih =>
    obtain ⟨ih1, ih2, ih3, ih4⟩ := ih
    rw [List.range_succ, List.foldl_append]
    obtain ⟨h1, h2, h3, h4⟩ :=
      tallyStep_props delta obs ((List.range n).foldl (tallyStep delta obs) s) n
    simp only [List.foldl_cons, List.foldl_nil] at *
    refine ⟨h1.trans ih1, h2.trans ih2, h3.trans ih3, ?_⟩
    intro b
    have := h4 b
    have := ih4 b
    by_cases hb1 : b = n
    · subst hb1
      simp only [if_pos (Nat.lt_succ_self b)] at *
      split_ifs at * <;> omega
    · by_cases hb2 : b < n
      · simp only [if_pos hb2, if_pos (Nat.lt_succ_of_lt hb2), if_neg hb1] at *
        omega
      · have : ¬ b < n + 1 := by omega
        simp only [if_neg hb2, if_neg hb1, if_neg this] at *
        omega

lemma compareWord_props (s : CmpStats) (obs expected : Nat) :
    (compareWord s obs expected).zeroToOne.length = s.zeroToOne.length ∧
    (compareWord s obs expected).oneToZero.length = s.oneToZero.length ∧
    (compareWord s obs expected).compared = s.compared ∧
    ∀ b, sumAt (compareWord s obs expected) b ≤ sumAt s b + 1 := by
  unfold compareWord
  by_cases h : obs ≠ expected
  · rw [if_pos h]
    obtain ⟨h1, h2, h3, h4⟩ := tallyFold_props (expected ^^^ obs) obs s 64
    exact ⟨h1, h2, h3, fun b => le_trans (h4 b) (by split_ifs <;> omega)⟩
  · rw [if_neg h]
    exact ⟨rfl, rfl, rfl, fun b => by omega⟩

lemma compareWords_props (mem : Nat → Nat) (n ptr lfsr : Nat) (s : CmpStats) :
    (compareWords mem n ptr lfsr s).1.zeroToOne.length = s.zeroToOne.length ∧
    (compareWords mem n ptr lfsr s).1.oneToZero.length = s.oneToZero.length ∧
    (compareWords mem n ptr lfsr s).1.compared = s.compared ∧
    ∀ b, sumAt (compareWords mem n ptr lfsr s).1 b ≤ sumAt s b + n := by
  induction n generalizing ptr lfsr s with
  | zero =>
    refine ⟨rfl, rfl, rfl, fun b => ?_⟩
    simp only [compareWords]
    omega
  | succ n ih =>
    obtain ⟨w1, w2, w3, w4⟩ := compareWord_props s (mem ptr) (Pattern lfsr).1
    obtain ⟨i1, i2, i3, i4⟩ :=
      ih (ptr + 8) (Pattern lfsr).2 (compareWord s (mem ptr) (Pattern lfsr).1)
    simp only [compareWords]
    refine ⟨i1.trans w1, i2.trans w2, i3.trans w3, fun b => ?_⟩
    have := i4 b
    have := w4 b
    omega

lemma comparePage_props (mem : Nat → Nat) (pageBase lfsr : Nat) (s : CmpStats) :
    (comparePage mem pageBase lfsr s).1.zeroToOne.length = s.zeroToOne.length ∧
    (comparePage mem pageBase lfsr s).1.oneToZero.length = s.oneToZero.length ∧
    (comparePage mem pageBase lfsr s).1.compared = s.compared ∧
    ∀ b, sumAt (comparePage mem pageBase lfsr s).1 b ≤ sumAt s b + 512 := by
  have h := compareWords_props mem (PAGE_SIZE / 8) pageBase
    (StirPattern lfsr pageBase) s
  rw [(by decide : PAGE_SIZE / 8 = 512)] at h
  exact h

lemma comparePages_fold_props (mem : Nat → Nat) (base n lfsr : Nat) (s : CmpStats) :
    (((List.range n).foldl (fun (acc : CmpStats × Nat) p =>
        comparePage mem (base + p * PAGE_SIZE) acc.2 acc.1)
      (s, lfsr))).1.zeroToOne.length = s.zeroToOne.length ∧
    (((List.range n).foldl (fun (acc : CmpStats × Nat) p =>
        comparePage mem (base + p * PAGE_SIZE) acc.2 acc.1)
      (s, lfsr))).1.oneToZero.length = s.oneToZero.length ∧
    (((List.range n).foldl (fun (acc : CmpStats × Nat) p =>
        comparePage mem (base + p * PAGE_SIZE) acc.2 acc.1)
      (s, lfsr))).1.compared = s.compared ∧
    ∀ b, sumAt (((List.range n).foldl (fun (acc : CmpStats × Nat) p =>
        comparePage mem (base + p * PAGE_SIZE) acc.2 acc.1)
      (s, lfsr))).1 b ≤ sumAt s b + n * 512 := by
  induction n with
  | zero =>
    refine ⟨rfl, rfl, rfl, fun b => ?_⟩
    simp only [List.range_zero, List.foldl_nil]
    omega
  | succ n ih =>
    obtain ⟨i1, i2, i3, i4⟩ := ih
    rw [List.range_succ, List.foldl_append]
    simp only [List.foldl_cons, List.foldl_nil]
    obtain ⟨p1, p2, p3, p4⟩ := comparePage_props mem (base + n * PAGE_SIZE)
      (((List.range n).foldl (fun (acc : CmpStats × Nat) p =>
        comparePage mem (base + p * PAGE_SIZE) acc.2 acc.1) (s, lfsr))).2
      (((List.range n).foldl (fun (acc : CmpStats × Nat) p =>
        comparePage mem (base + p * PAGE_SIZE) acc.2 acc.1) (s, lfsr))).1
    refine ⟨p1.trans i1, p2.trans i2, p3.trans i3, fun b => ?_⟩
    have := p4 b
    have := i4 b
    have hmul : (n + 1) * 512 = n * 512 + 512 := by rw [Nat.succ_mul]
    omega

/-- The statistics invariant: the counter arrays have 64 slots, the bit
budget `compared` equals 64 words' worth of `W` compared words, and each
per-bit counter pair is bounded by `W`. -/
def StatsOk (W : Nat) (s : CmpStats) : Prop :=
  s.zeroToOne.length = 64 ∧ s.oneToZero.length = 64 ∧
  s.compared = 64 * W ∧ ∀ b, sumAt s b ≤ W

lemma compareEntry_ok (mem : Nat → Nat) (d : MemDesc) (lfsr : Nat)
    (s : CmpStats) (W : Nat) (h : StatsOk W s) :
    StatsOk (W + d.numberOfPages * 512) (compareEntry mem d lfsr s).1 := by
  obtain ⟨hz, ho, hc, hs⟩ := h
  obtain ⟨f1, f2, f3, f4⟩ :=
    comparePages_fold_props mem d.physicalStart d.numberOfPages lfsr s
  unfold compareEntry
  refine ⟨f1.trans hz, f2.trans ho, ?_, ?_⟩
  · show (((List.range d.numberOfPages).foldl _ (s, lfsr))).1.compared +
      d.numberOfPages * PAGE_SIZE * 8 = _
    rw [f3, hc]
    simp only [PAGE_SIZE_eq]
    ring
  · intro b
    have := f4 b
    have := hs b
    show sumAt (((List.range d.numberOfPages).foldl _ (s, lfsr))).1 b ≤ _
    omega

lemma comparePhase_ok (mem : Nat → Nat) (l : List MemDesc) (lfsr : Nat)
    (s : CmpStats) (W : Nat) (h : StatsOk W s) :
    ∃ Wf, StatsOk Wf (comparePhase mem l lfsr s).1 := by
  induction l generalizing lfsr s W with
  | nil => exact ⟨W, h⟩
  | cons d t ih =>
    have hstep := compareEntry_ok mem d lfsr s W h
    have heq : comparePhase mem (d :: t) lfsr s =
        comparePhase mem t (compareEntry mem d lfsr s).2
          (compareEntry mem d lfsr s).1 := by
      simp [comparePhase]
    rw [heq]
    exact ih _ _ _ hstep

lemma getD_replicate_zero (n b : Nat) :
    (List.replicate n (0 : Nat)).getD b 0 = 0 := by
  induction n generalizing b with
  | zero => rfl
  | succ n ih =>
    cases b with
    | zero => rfl
    | succ b => simp [List.replicate, ih b]

lemma zeroStats_ok : StatsOk 0 zeroStats := by
  refine ⟨by simp [zeroStats], by simp [zeroStats], rfl, ?_⟩
  intro b
  unfold sumAt zeroStats
  rw [getD_replicate_zero]

lemma foldl_add_le (g : Nat → Nat) (W : Nat) (hg : ∀ b, g b ≤ W) (n a : Nat) :
    (List.range n).foldl (fun acc i => acc + g i) a ≤ a + n * W := by
  induction n with
  | zero => simp
  | succ n ih =>
    rw [List.range_succ, List.foldl_append]
    simp only [List.foldl_cons, List.foldl_nil]
    have := hg n
    have hmul : (n + 1) * W = n * W + W := by rw [Nat.succ_mul]
    omega

/-- Claim C9: at the end of the Compare phase (run from the zeroed
statistics over any table, memory contents and generator state), for every
bit position `b`, `zero_to_one[b] + one_to_zero[b] ≤ compared_bits / 64`,
and `differences` — the sum over all bits of the two counters — is at most
`compared_bits`. -/
theorem compare_stats_bounds (mem : Nat → Nat) (l : List MemDesc)
    (lfsr b : Nat) :
    (comparePhase mem l lfsr zeroStats).1.zeroToOne.getD b 0 +
      (comparePhase mem l lfsr zeroStats).1.oneToZero.getD b 0 ≤
      (comparePhase mem l lfsr zeroStats).1.compared / 64 ∧
    differences (comparePhase mem l lfsr zeroStats).1 ≤
      (comparePhase mem l lfsr zeroStats).1.compared := by
  obtain ⟨W, hz, ho, hc, hs⟩ :=
    comparePhase_ok mem l lfsr zeroStats 0 zeroStats_ok
  constructor
  · have hb := hs b
    rw [hc]
    have : (64 * W) / 64 = W := Nat.mul_div_cancel_left W (by norm_num)
    rw [this]
    simpa [sumAt] using hb
  · unfold differences
    have hfold := foldl_add_le
      (fun i => sumAt (comparePhase mem l lfsr zeroStats).1 i) W hs 64 0
    rw [hc]
    simpa [sumAt] using hfold

/-! ## Claim C10: round-trip persistence -/

/-- Field bounds of a well-formed descriptor: `Type` is a `UINT32`, the
other fields are `UINT64`. -/
def wfDesc (d : MemDesc) : Prop :=
  d.type < 2 ^ 32 ∧ d.physicalStart < 2 ^ 64 ∧ d.virtualStart < 2 ^ 64 ∧
    d.numberOfPages < 2 ^ 64 ∧ d.attrib < 2 ^ 64

instance (d : MemDesc) : Decidable (wfDesc d) := by
  unfold wfDesc; infer_instance

lemma bytesLE_length (w v : Nat) : (bytesLE w v).length = w := by
  induction w generalizing v with
  | zero => rfl
  | succ n ih => simp [bytesLE, ih]

lemma fromBytesLE_bytesLE (w v : Nat) :
    fromBytesLE (bytesLE w v) = v % 256 ^ w := by
  induction w generalizing v with
  | zero => simp [bytesLE, fromBytesLE, Nat.mod_one]
  | succ n ih =>
    simp only [bytesLE, fromBytesLE, ih]
    rw [pow_succ', Nat.mod_mul]

lemma encodeDesc_length (d : MemDesc) : (encodeDesc d).length = DESC_BYTES := by
  simp [encodeDesc, bytesLE_length, DESC_BYTES]

/-- Decoding the first descriptor of a byte stream that starts with an
encoded well-formed descriptor recovers it, and dropping 40 bytes leaves
the rest. -/
lemma decodeDesc_encode (d : MemDesc) (rest : List Nat) (h : wfDesc d) :
    decodeDesc (encodeDesc d ++ rest) = d ∧
    (encodeDesc d ++ rest).drop DESC_BYTES = rest := by
  obtain ⟨h1, h2, h3, h4, h5⟩ := h
  have e : encodeDesc d ++ rest =
      bytesLE 4 d.type ++ (bytesLE 4 0 ++ (bytesLE 8 d.physicalStart ++
        (bytesLE 8 d.virtualStart ++ (bytesLE 8 d.numberOfPages ++
          (bytesLE 8 d.attrib ++ rest))))) := by
    simp [encodeDesc, List.append_assoc]
  have d4 : ∀ (x : Nat) (u : List Nat), (bytesLE 4 x ++ u).drop 4 = u :=
    fun x u => List.drop_left' (bytesLE_length 4 x)
  have d8 : ∀ (x : Nat) (u : List Nat), (bytesLE 8 x ++ u).drop 8 = u :=
    fun x u => List.drop_left' (bytesLE_length 8 x)
  have t4 : ∀ (x : Nat) (u : List Nat), (bytesLE 4 x ++ u).take 4 = bytesLE 4 x :=
    fun x u => List.take_left' (bytesLE_length 4 x)
  have t8 : ∀ (x : Nat) (u : List Nat), (bytesLE 8 x ++ u).take 8 = bytesLE 8 x :=
    fun x u => List.take_left' (bytesLE_length 8 x)
  have e8 : (encodeDesc d ++ rest).drop 8 =
      bytesLE 8 d.physicalStart ++ (bytesLE 8 d.virtualStart ++
        (bytesLE 8 d.numberOfPages ++ (bytesLE 8 d.attrib ++ rest))) := by
    calc (encodeDesc d ++ rest).drop 8
        = ((encodeDesc d ++ rest).drop 4).drop 4 := (List.drop_drop 4 4 _).symm
      _ = _ := by rw [e, d4, d4]
  have e16 : (encodeDesc d ++ rest).drop 16 =
      bytesLE 8 d.virtualStart ++
        (bytesLE 8 d.numberOfPages ++ (bytesLE 8 d.attrib ++ rest)) := by
    calc (encodeDesc d ++ rest).drop 16
        = ((encodeDesc d ++ rest).drop 8).drop 8 := (List.drop_drop 8 8 _).symm
      _ = _ := by rw [e8, d8]
  have e24 : (encodeDesc d ++ rest).drop 24 =
      bytesLE 8 d.numberOfPages ++ (bytesLE 8 d.attrib ++ rest) := by
    calc (encodeDesc d ++ rest).drop 24
        = ((encodeDesc d ++ rest).drop 16).drop 8 := (List.drop_drop 16 8 _).symm
      _ = _ := by rw [e16, d8]
  have e32 : (encodeDesc d ++ rest).drop 32 = bytesLE 8 d.attrib ++ rest := by
    calc (encodeDesc d ++ rest).drop 32
        = ((encodeDesc d ++ rest).drop 24).drop 8 := (List.drop_drop 24 8 _).symm
      _ = _ := by rw [e24, d8]
  constructor
  · have f1 : fromBytesLE ((encodeDesc d ++ rest).take 4) = d.type := by
      rw [e, t4, fromBytesLE_bytesLE]
      exact Nat.mod_eq_of_lt h1
    have f2 : fromBytesLE (((encodeDesc d ++ rest).drop 8).take 8) =
        d.physicalStart := by
      rw [e8, t8, fromBytesLE_bytesLE]
      exact Nat.mod_eq_of_lt h2
    have f3 : fromBytesLE (((encodeDesc d ++ rest).drop 16).take 8) =
        d.virtualStart := by
      rw [e16, t8, fromBytesLE_bytesLE]
      exact Nat.mod_eq_of_lt h3
    have f4 : fromBytesLE (((encodeDesc d ++ rest).drop 24).take 8) =
        d.numberOfPages := by
      rw [e24, t8, fromBytesLE_bytesLE]
      exact Nat.mod_eq_of_lt h4
    have f5 : fromBytesLE (((encodeDesc d ++ rest).drop 32).take 8) =
        d.attrib := by
      rw [e32, t8, fromBytesLE_bytesLE]
      exact Nat.mod_eq_of_lt h5
    unfold decodeDesc
    rw [f1, f2, f3, f4, f5]
  · calc (encodeDesc d ++ rest).drop DESC_BYTES
        = ((encodeDesc d ++ rest).drop 32).drop 8 := (List.drop_drop 32 8 _).symm
      _ = rest := by rw [e32, d8]

lemma saveTable_length (l : List MemDesc) :
    (saveTable l).length = DESC_BYTES * l.length := by
  induction l with
  | nil => rfl
  | cons d t ih =>
    simp only [saveTable, List.length_append, encodeDesc_length, ih,
      List.length_cons]
    ring

lemma decodeList_saveTable (l : List MemDesc) (h : ∀ d ∈ l, wfDesc d) :
    decodeList l.length (saveTable l) = l := by
  induction l with
  | nil => rfl
  | cons d t ih =>
    have hd := h d (List.mem_cons_self d t)
    have ht : ∀ x ∈ t, wfDesc x := fun x hx => h x (List.mem_cons_of_mem d hx)
    obtain ⟨hdec, hdrop⟩ := decodeDesc_encode d (saveTable t) hd
    show decodeDesc (encodeDesc d ++ saveTable t) ::
      decodeList t.length ((encodeDesc d ++ saveTable t).drop DESC_BYTES) = d :: t
    rw [hdec, hdrop, ih ht]

/-- Claim C10: for every region table of length in `[1, 200]` whose entries
have in-range fields, saving the table to the non-volatile variable and
loading it back restores the table byte-for-byte, with the loaded length
derived as payload size divided by descriptor size equal to the saved
length. -/
theorem save_load_roundtrip (l : List MemDesc)
    (hwf : ∀ d ∈ l, wfDesc d)
    (_hlen1 : 1 ≤ l.length) (_hlen2 : l.length ≤ MEMORY_DESC_MAX) :
    loadTable (saveTable l) = some l ∧
    (saveTable l).length / DESC_BYTES = l.length := by
  have hL := saveTable_length l
  have hdiv : (saveTable l).length / DESC_BYTES = l.length := by
    rw [hL, Nat.mul_div_cancel_left _ (by decide : 0 < DESC_BYTES)]
  refine ⟨?_, hdiv⟩
  unfold loadTable
  rw [if_pos (by rw [hL]; exact Nat.mul_mod_right _ _), hdiv,
    decodeList_saveTable l hwf]

/-- Witness for claim C10: a concrete one-entry table survives the
round trip. -/
theorem save_load_roundtrip_witness :
    loadTable (saveTable [⟨7, 16777216, 0, 4096, 0⟩]) =
      some [⟨7, 16777216, 0, 4096, 0⟩] ∧
    (saveTable [⟨7, 16777216, 0, 4096, 0⟩]).length / DESC_BYTES = 1 :=
  save_load_roundtrip [⟨7, 16777216, 0, 4096, 0⟩] (by decide) (by decide)
    (by decide)

end RamTest
